import Mathlib

/-!
Shallow embedding of the FreeWork data scraper's crawl-and-extract pipeline
(`freework_scraper/scraper/job_extractor.py`, `freework_scraper/scraper/search.py`,
`freework_scraper/models.py`, `main.py`) together with proofs about the claims
of the natural-language specification.

Modelling conventions:
* Python strings are Lean `String`s; character-level algorithms (whitespace
  stripping, run collapsing, line splitting) work on `List Char` via `.data`.
* The Selenium renderer is an external capability; it is modelled as a function
  `String → Except String String` (URL to rendered HTML, or a failure carrying
  the exception's `str(exc)` message).  `BeautifulSoup` parsing of a rendered
  document is modelled as `String → Except String JobPage` / `SearchPage`,
  where the page structures record exactly what the extractor's selectors
  read from the soup.
* Thread-pool execution in `extract_all_jobs` is modelled sequentially in
  submission order; completion order is a nondeterministic permutation in the
  real program and the claims settled here are stated so that the modelled
  order realises one admissible completion order.
* Progress callbacks are modelled by an explicit trace of the argument tuples
  the code passes to the callback.
-/

/-! ## Text normalizer (`job_extractor._clean_text`)

`_clean_text` does `text.strip()` followed by `re.sub(r"\s+", " ", ...)`.
`isWs` is the ASCII part of Python's whitespace class (space, tab, newline,
carriage return, vertical tab, form feed). -/

def isWs (c : Char) : Bool :=
  c == ' ' || c == '\t' || c == '\n' || c == '\r' || c == '\x0B' || c == '\x0C'

/-- Python `str.strip()`: drop leading and trailing whitespace. -/
def stripChars (l : List Char) : List Char :=
  ((l.dropWhile isWs).reverse.dropWhile isWs).reverse

/-- Python `re.sub(r"\s+", " ", s)`: replace every maximal run of whitespace
characters by a single space.  The Boolean argument records whether the
previous character belonged to a whitespace run. -/
def collapseWsAux : Bool → List Char → List Char
  | _, [] => []
  | prev, c :: rest =>
    if isWs c then
      if prev then collapseWsAux true rest else ' ' :: collapseWsAux true rest
    else c :: collapseWsAux false rest

/-- Model of `job_extractor._clean_text` on the character list of a non-empty string. -/
def cleanChars (l : List Char) : List Char :=
  collapseWsAux false (stripChars l)

/-- Model of `job_extractor._clean_text` for a `str` argument: empty input short-circuits
to the empty string, otherwise strip and collapse whitespace. -/
def clean_text (s : String) : String :=
  if s.data = [] then "" else String.mk (cleanChars s.data)

/-- Model of `job_extractor._clean_text` for the full `str | None` argument type:
`None` (and `""`) are falsy and yield the empty string. -/
def clean_text_opt : Option String → String
  | none => ""
  | some s => clean_text s

/-! ## Record model (`models.FreeWorkJob`) -/

/-- Model of `models.FreeWorkJob`: one job posting's extracted data. -/
structure FreeWorkJob where
  title : String := ""
  company_name : String := ""
  company_location : String := ""
  job_category : String := ""
  job_url : String := ""
  publish_date : String := ""
  start_date : String := ""
  duration : String := ""
  experience : String := ""
  salary : String := ""
  remote : String := ""
  location : String := ""
  description : String := ""
  skills : String := ""
  sector : String := ""
  scraped_at : String := ""
  search_url : String := ""
  page_number : Nat := 0
  status : String := "ok"
  error_message : String := ""
  deriving Repr, DecidableEq

/-- Model of `FreeWorkJob.has_salary`: true iff the salary field is non-empty after
trimming. -/
def FreeWorkJob.has_salary (j : FreeWorkJob) : Bool :=
  decide (stripChars j.salary.data ≠ []) && decide (j.salary ≠ "")

/-- Model of `FreeWorkJob.has_remote`: true iff the remote field is non-empty after
trimming. -/
def FreeWorkJob.has_remote (j : FreeWorkJob) : Bool :=
  decide (stripChars j.remote.data ≠ []) && decide (j.remote ≠ "")

/-! ## Icon matcher (`job_extractor._match_icon`) -/

/-- Modelled from the spec: the fixed table `SVG_ICON_PATHS` lives in
`freework_scraper/config.py`, which is not among the available sources.  Per
the spec it is a fixed, finite mapping from exact SVG path-descriptor strings
to the closed attribute-tag set {calendar, duration, experience, location,
salary, remote}; representative concrete path descriptors stand in for the
real ones.  Iteration order is the insertion order of the Python dict. -/
def SVG_ICON_PATHS : List (String × String) :=
  [ ("calendar", "M6 2a1 1 0 00-1 1v1H4a2 2 0 00-2 2v10"),
    ("duration", "M12 8v4l3 3m6-3a9 9 0 11-18 0"),
    ("experience", "M21 13.255A23.931 23.931 0 0112 15"),
    ("location", "M17.657 16.657L13.414 20.9a1.998"),
    ("salary", "M12 8c-1.657 0-3 .895-3 2s1.343 2"),
    ("remote", "M8.111 16.404a5.5 5.5 0 017.778 0") ]

/-- Model of `job_extractor._match_icon`: falsy input yields no match; otherwise the
input is stripped and compared for exact equality against each table entry in
order, returning the first matching entry's icon name. -/
def match_icon (svg_d : String) : Option String :=
  if svg_d.data = [] then none
  else
    let cleaned := stripChars svg_d.data
    (SVG_ICON_PATHS.find? (fun p => cleaned = p.2.data)).map (fun p => p.1)

/-! ## Page model for a job detail page

A `JobPage` records exactly what `job_extractor`'s BeautifulSoup queries
read from one rendered detail document. -/

/-- One `div.flex.items-center.py-1` icon container: the `d` attribute of its
`path` child (if any) and the text of its icon-text `span` (primary or
fallback selector), if found. -/
structure IconRow where
  pathD : Option String := none
  spanText : Option String := none
  deriving Repr, DecidableEq

/-- What the extractor's selectors see in one rendered job detail page.
`headerText` is the `get_text(separator="\n")` of the header container found
by the primary class query or the fallback selector (`none` when both are
absent), and similarly for the other optional fields. -/
structure JobPage where
  headerText : Option String := none
  timeText : Option String := none
  contentText : Option String := none
  iconRows : List IconRow := []
  badgeTexts : List String := []
  tagTexts : List String := []
  breadcrumbLinkTexts : Option (List String) := none
  deriving Repr, DecidableEq

/-- Split a character list on a separator character (Python `str.split(sep)`). -/
def splitOnChar (sep : Char) : List Char → List (List Char)
  | [] => [[]]
  | c :: rest =>
    let r := splitOnChar sep rest
    if c = sep then [] :: r
    else
      match r with
      | [] => [[c]]
      | h :: t => (c :: h) :: t

/-- The non-empty stripped lines of a text block:
`[line.strip() for line in text.split("\n") if line.strip()]`. -/
def nonEmptyLines (text : String) : List String :=
  ((splitOnChar '\n' text.data).map stripChars).filterMap
    (fun l => if l = [] then none else some (String.mk l))

/-- Result of `job_extractor._extract_header`. -/
structure HeaderInfo where
  title : String := ""
  company_name : String := ""
  company_location : String := ""
  job_category : String := ""
  deriving Repr, DecidableEq

/-- Model of `job_extractor._extract_header`: if no header container is found all four
fields stay empty; otherwise the container's text is split into non-empty
stripped lines and the first four lines are assigned positionally to
title, company name, company location, job category. -/
def extract_header (headerText : Option String) : HeaderInfo :=
  match headerText with
  | none => {}
  | some t =>
    let lines := nonEmptyLines t
    { title := (lines.get? 0).getD ""
      company_name := (lines.get? 1).getD ""
      company_location := (lines.get? 2).getD ""
      job_category := (lines.get? 3).getD "" }

/-- Model of `job_extractor._extract_publish_date`: clean the time element's text, or
empty when the element is absent. -/
def extract_publish_date (timeText : Option String) : String :=
  match timeText with
  | none => ""
  | some t => clean_text t

/-- Model of `job_extractor._extract_description`: split the content container's text on
newlines, strip each line, drop empty lines, and rejoin with newlines; empty
when the container is absent. -/
def extract_description (contentText : Option String) : String :=
  match contentText with
  | none => ""
  | some t => String.intercalate "\n" (nonEmptyLines t)

/-- The six icon-derived attribute slots of `_extract_icon_attributes`. -/
structure IconAttrs where
  calendar : String := ""
  duration : String := ""
  experience : String := ""
  location : String := ""
  salary : String := ""
  remote : String := ""
  deriving Repr, DecidableEq

/-- Model of `attributes[icon_type] = value` for the six known icon names. -/
def setIconAttr (a : IconAttrs) (icon : String) (v : String) : IconAttrs :=
  if icon = "calendar" then { a with calendar := v }
  else if icon = "duration" then { a with duration := v }
  else if icon = "experience" then { a with experience := v }
  else if icon = "location" then { a with location := v }
  else if icon = "salary" then { a with salary := v }
  else if icon = "remote" then { a with remote := v }
  else a

/-- Model of `job_extractor._extract_icon_attributes`: walk the icon containers in
document order; for each container that has a `path` child whose `d` attribute
matches a known icon and an icon-text span, write the cleaned span text into
that icon's slot (later containers overwrite earlier ones). -/
def extract_icon_attributes (rows : List IconRow) : IconAttrs :=
  rows.foldl
    (fun attrs row =>
      match row.pathD with
      | none => attrs
      | some d =>
        match match_icon d with
        | none => attrs
        | some icon =>
          match row.spanText with
          | none => attrs
          | some t => setIconAttr attrs icon (clean_text t))
    {}

/-- Model of `job_extractor._extract_skills`: append the cleaned text of every badge
element that is non-empty and shorter than 50 characters (no deduplication
among badges), then the cleaned text of every tag link that is non-empty,
shorter than 50 characters and not already collected; join with ", ". -/
def extract_skills (badgeTexts tagTexts : List String) : String :=
  let afterBadges :=
    badgeTexts.foldl
      (fun acc b =>
        let t := clean_text b
        if t ≠ "" ∧ t.length < 50 then acc ++ [t] else acc)
      []
  let afterTags :=
    tagTexts.foldl
      (fun acc b =>
        let t := clean_text b
        if t ≠ "" ∧ t.length < 50 ∧ t ∉ acc then acc ++ [t] else acc)
      afterBadges
  String.intercalate ", " afterTags

/-- Model of `job_extractor._extract_sector`: when a breadcrumb navigation element
exists and holds at least two links, the cleaned text of the last link;
otherwise empty. -/
def extract_sector (breadcrumbLinkTexts : Option (List String)) : String :=
  match breadcrumbLinkTexts with
  | none => ""
  | some items =>
    if items.length ≥ 2 then clean_text ((items.getLast?).getD "") else ""

/-! ## Page extractor (`job_extractor.extract_job_detail`)

The fallible prefix of the `try` block — `browser.get(job_url)`,
`browser.page_source` and the `BeautifulSoup` parse — is modelled by
`render` (URL to rendered HTML or a raised message) and `parse` (HTML to the
selector view of the document or a raised message).  Every step after the
parse is a total function of the `JobPage`, matching the source, where each
field extractor only performs guarded BeautifulSoup queries. -/

/-- The fallible render-and-parse prefix of `extract_job_detail`'s `try`
block. -/
def fetchPage (render : String → Except String String)
    (parse : String → Except String JobPage) (url : String) :
    Except String JobPage :=
  match render url with
  | Except.error e => Except.error e
  | Except.ok html => parse html

/-- Model of `job_extractor.extract_job_detail`: build the placeholder job from the
identity fields, then either record the raised failure (status `error`,
message `str(exc)`) or fill every extracted field and mark status `ok`. -/
def extract_job_detail (render : String → Except String String)
    (parse : String → Except String JobPage)
    (job_url : String) (search_url : String) (page_num : Nat)
    (scraped_at : String) : FreeWorkJob :=
  let base : FreeWorkJob :=
    { job_url := job_url, search_url := search_url, page_number := page_num,
      scraped_at := scraped_at }
  match fetchPage render parse job_url with
  | Except.error e => { base with status := "error", error_message := e }
  | Except.ok page =>
    let header := extract_header page.headerText
    let attrs := extract_icon_attributes page.iconRows
    { base with
      title := header.title
      company_name := header.company_name
      company_location := header.company_location
      job_category := header.job_category
      publish_date := extract_publish_date page.timeText
      description := extract_description page.contentText
      start_date := attrs.calendar
      duration := attrs.duration
      experience := attrs.experience
      location := attrs.location
      salary := attrs.salary
      remote := attrs.remote
      skills := extract_skills page.badgeTexts page.tagTexts
      sector := extract_sector page.breadcrumbLinkTexts
      status := "ok" }

/-! ## Extraction orchestrator (`job_extractor.extract_all_jobs`)

The thread pool is modelled by processing the futures in submission order
(one admissible completion order).  The second component of the result is the
trace of argument tuples passed to the `on_job_done` callback: the code
computes the first argument as `job_links.index(url) + 1`, i.e. one plus the
position of the first occurrence of the completed URL in the input list. -/

/-- Model of `job_extractor.extract_all_jobs`: extract every link, appending each
completed job to the accumulator and recording the callback invocation
`(job_links.index(url) + 1, total, job)`.  Returns the job list and the
callback trace. -/
def extract_all_jobs (render : String → Except String String)
    (parse : String → Except String JobPage)
    (job_links : List String) (search_url : String) (scraped_at : String) :
    List FreeWorkJob × List (Nat × Nat × FreeWorkJob) :=
  job_links.foldl
    (fun acc url =>
      let job := extract_job_detail render parse url search_url 0 scraped_at
      (acc.1 ++ [job],
       acc.2 ++ [(job_links.indexOf url + 1, job_links.length, job)]))
    ([], [])

/-! ## Pagination walker (`scraper/search.py`) -/

/-- Modelled from the spec: `JOB_LINK_MARKER` is the constant
`JOB_LINK_PREFIX` of `freework_scraper/config.py`, which is not among the
available sources; per the spec an anchor is a job link iff its href contains
this fixed job-path marker.  A representative non-empty marker stands in for
the real one. -/
def JOB_LINK_MARKER : String := "/job-mission/"

/-- Modelled from the spec: `BASE_URL` of `freework_scraper/config.py` (not
among the available sources) is the fixed site base URL against which
relative hrefs are resolved. -/
def BASE_URL : String := "https://www.free-work.com"

/-- Python `str.startswith` on the underlying characters. -/
def startsWithStr (pre s : String) : Bool := pre.data.isPrefixOf s.data

/-- Substring test (Python `needle in haystack`). -/
def containsSeq (pat : List Char) : List Char → Bool
  | [] => pat.isEmpty
  | c :: rest => pat.isPrefixOf (c :: rest) || containsSeq pat rest

/-- Python `str.isdigit()` followed by `int(...)`: `some` of the decimal value
when the character list is non-empty and all digits. -/
def digitsToNat (l : List Char) : Option Nat :=
  if l ≠ [] ∧ l.all Char.isDigit then
    some (l.foldl (fun a c => a * 10 + (c.toNat - 48)) 0)
  else none

/-- What `search.py`'s selectors see in one rendered search-results page:
the `data-page` attribute values of the pagination buttons, and the hrefs of
the anchors inside the `search-result` container (`none` when the container
is absent). -/
structure SearchPage where
  paginationDataPages : List String := []
  resultAnchorHrefs : Option (List String) := none
  deriving Repr, DecidableEq

/-- Model of `search.detect_total_pages`: the maximum numeric `data-page` attribute
among the pagination buttons, or 1 when none parses as a number. -/
def detect_total_pages (p : SearchPage) : Nat :=
  let nums := p.paginationDataPages.filterMap (fun s => digitsToNat s.data)
  if nums = [] then 1 else nums.foldl max 0

/-- Model of `search.extract_job_links_from_page`: no links when the results container
is missing; otherwise every anchor href containing the job-link marker,
resolved against the base URL when relative, with exact duplicates suppressed
within the page (the `seen` set). -/
def extract_job_links_from_page (p : SearchPage) : List String :=
  match p.resultAnchorHrefs with
  | none => []
  | some hrefs =>
    hrefs.foldl
      (fun links href =>
        if containsSeq JOB_LINK_MARKER.data href.data then
          let full := if startsWithStr "http" href then href else BASE_URL ++ href
          if full ∉ links then links ++ [full] else links
        else links)
      []

/-- Model of `search.collect_all_job_links`: render the first page (a failure here
propagates), detect the page total (capped by `max_pages` when positive),
collect links from the already-rendered first page, then walk pages 2..total,
where a failed page contributes zero links and the walk continues.  The
second component is the trace of `on_page_done(page_num, total_pages,
links_count)` invocations. -/
def collect_all_job_links (renderFirst : Except String SearchPage)
    (renderPage : Nat → Except String SearchPage) (max_pages : Nat) :
    Except String (List String × List (Nat × Nat × Nat)) :=
  match renderFirst with
  | Except.error e => Except.error e
  | Except.ok first =>
    let detected := detect_total_pages first
    let total := if max_pages > 0 then min detected max_pages else detected
    let firstLinks := extract_job_links_from_page first
    Except.ok
      ((List.range' 2 (total - 1)).foldl
        (fun acc pageNum =>
          match renderPage pageNum with
          | Except.ok pg =>
            let ls := extract_job_links_from_page pg
            (acc.1 ++ ls, acc.2 ++ [(pageNum, total, ls.length)])
          | Except.error _ => (acc.1, acc.2 ++ [(pageNum, total, 0)]))
        (firstLinks, [(1, total, firstLinks.length)]))

/-! ## CLI crawl run (`main.main`)

Phase 1 collects the links, phase 2 hands the collected list directly to
`extract_all_jobs`; when no link was found the run exits with an empty result
set. -/

/-- The result set of one crawl run of `main.main`: collected links are passed
to the orchestrator unchanged (no deduplication between the phases). -/
def main_run (renderFirst : Except String SearchPage)
    (renderPage : Nat → Except String SearchPage)
    (render : String → Except String String)
    (parse : String → Except String JobPage)
    (max_pages : Nat) (search_url : String) (scraped_at : String) :
    Except String (List FreeWorkJob) :=
  match collect_all_job_links renderFirst renderPage max_pages with
  | Except.error e => Except.error e
  | Except.ok (job_links, _) =>
    if job_links = [] then Except.ok []
    else Except.ok (extract_all_jobs render parse job_links search_url scraped_at).1

/-! ## `search._build_page_url`

`_build_page_url` is `urlparse` / `parse_qs` / `params["page"] = [str(page)]` /
`urlencode(..., doseq=True)` / `urlunparse`.  The URL is modelled in its
parsed six-component form; the query component is modelled at parameter
granularity as the ordered list of decoded `(name, value)` pairs (a pair with
value `""` models both `name=` and a bare `name` field), which is exactly the
view `parse_qsl(..., keep_blank_values=True)` exposes. -/

/-- A parsed URL as `urllib.parse.urlparse` returns it; the query component is
the ordered list of its `(name, value)` pairs. -/
structure UrlParts where
  scheme : String := ""
  netloc : String := ""
  path : String := ""
  pathParams : String := ""
  query : List (String × String) := []
  fragment : String := ""
  deriving Repr, DecidableEq

/-- One step of `parse_qs`'s grouping: append a value to the (unique) entry of
its key, or add a new key at the end. -/
def qsInsert : List (String × List String) → String → String →
    List (String × List String)
  | [], k, v => [(k, [v])]
  | e :: rest, k, v =>
    if e.1 = k then (e.1, e.2 ++ [v]) :: rest else e :: qsInsert rest k v

/-- Model of `urllib.parse.parse_qs` with default `keep_blank_values=False`: drop every
pair whose value is blank, then group remaining values by name, names ordered
by first occurrence. -/
def parse_qs (q : List (String × String)) : List (String × List String) :=
  (q.filter (fun p => p.2 ≠ "")).foldl (fun acc p => qsInsert acc p.1 p.2) []

/-- Model of `params["page"] = [v]` on the parsed dictionary: replace the value list of
an existing `page` key in place, or append the key at the end. -/
def qsSetPage : List (String × List String) → String →
    List (String × List String)
  | [], v => [("page", [v])]
  | e :: rest, v =>
    if e.1 = "page" then ("page", [v]) :: rest else e :: qsSetPage rest v

/-- Model of `urllib.parse.urlencode(params, doseq=True)`: one `(name, value)` pair per
value, keys in dictionary order. -/
def urlencode_doseq (g : List (String × List String)) : List (String × String) :=
  (g.map (fun e => e.2.map (fun v => (e.1, v)))).flatten

/-- Model of `search._build_page_url`: re-parse the query, force `page` to the given
page number, re-encode, and rebuild the URL with every other component
unchanged. -/
def build_page_url (u : UrlParts) (page : Nat) : UrlParts :=
  { u with query := urlencode_doseq (qsSetPage (parse_qs u.query) (toString page)) }

/-- All values carried by query parameter `k`, in order. -/
def queryValues (k : String) (q : List (String × String)) : List String :=
  q.filterMap (fun p => if p.1 = k then some p.2 else none)

/-- Decidable equality for `Except`, used to evaluate concrete run results. -/
instance {e a : Type} [DecidableEq e] [DecidableEq a] : DecidableEq (Except e a) := fun x y =>
  match x, y with
  | Except.error u, Except.error v =>
    if h : u = v then isTrue (by rw [h])
    else isFalse (fun hh => h (by injection hh))
  | Except.ok u, Except.ok v =>
    if h : u = v then isTrue (by rw [h])
    else isFalse (fun hh => h (by injection hh))
  | Except.error _, Except.ok _ => isFalse (fun hh => Except.noConfusion hh)
  | Except.ok _, Except.error _ => isFalse (fun hh => Except.noConfusion hh)

/-! ## Spec-side readings and proof-support predicates -/

/-- The spec's reading of skills extraction: the claim asks for deduplication
by exact string match across ALL source elements (badges and tags alike), with
items of normalized length at least 50 discarded. -/
def dedupKeepFirst (l : List String) : List String :=
  l.foldl (fun acc t => if t ∈ acc then acc else acc ++ [t]) []

/-- The claim's predicted skills string: join of the normalized badge and tag
texts, globally deduplicated, with items of length ≥ 50 discarded. -/
def skills_spec_dedup_all (badgeTexts tagTexts : List String) : String :=
  String.intercalate ", "
    (dedupKeepFirst (((badgeTexts ++ tagTexts).map clean_text).filter
      (fun t => t.length < 50)))

/-- Direct-recursion reading of the badge pass of `_extract_skills`: keep the
cleaned badge texts that are non-empty and shorter than 50 characters, in
order, duplicates included. -/
def badgeItems : List String → List String
  | [] => []
  | b :: bs =>
    let t := clean_text b
    if t ≠ "" ∧ t.length < 50 then t :: badgeItems bs else badgeItems bs

/-- Direct-recursion reading of the tag pass of `_extract_skills`: keep the
cleaned tag texts that are non-empty, shorter than 50 characters and distinct
from everything already collected (`seen` starts as the badge items). -/
def tagItemsAux : List String → List String → List String
  | _, [] => []
  | seen, x :: xs =>
    let t := clean_text x
    if t ≠ "" ∧ t.length < 50 ∧ t ∉ seen then t :: tagItemsAux (seen ++ [t]) xs
    else tagItemsAux seen xs

/-- The keys of a grouped query dictionary, in order. -/
def qsKeys (g : List (String × List String)) : List String := g.map (fun e => e.1)

/-- All values the grouped query dictionary carries for key `k`. -/
def gValues (k : String) (g : List (String × List String)) : List String :=
  (g.filterMap (fun e => if e.1 = k then some e.2 else none)).flatten

/-- No whitespace at the head of the character list. -/
def headOk : List Char → Bool
  | [] => true
  | c :: _ => !isWs c

/-- No whitespace at the end of the character list. -/
def lastNonWs : List Char → Bool
  | [] => true
  | [c] => !isWs c
  | _ :: c :: rest => lastNonWs (c :: rest)

/-- Internal normal form of `_clean_text`'s output: every whitespace character
is a single space followed by a non-whitespace character, and the list does
not end in whitespace. -/
def normOk : List Char → Bool
  | [] => true
  | [c] => !isWs c
  | c :: d :: rest => (!isWs c || (c == ' ' && !isWs d)) && normOk (d :: rest)

/-! # Theorems -/

/-! ## Claim C3 -/

/-- Claim C3 (confirmed): when the whole-document work of
`extract_job_detail` fails — the render or the top-level parse raises — the
returned job has status `error`, carries the failure's message, and consists
of exactly the identity fields (`job_url`, `search_url`, `page_number`,
`scraped_at`) plus the error fields; every descriptive field is the empty
default, so the result is never a partial record. -/
theorem extract_job_detail_error_identity_only
    (render : String → Except String String)
    (parse : String → Except String JobPage)
    (url s : String) (n : Nat) (t e : String)
    (h : fetchPage render parse url = Except.error e) :
    extract_job_detail render parse url s n t =
      { job_url := url, search_url := s, page_number := n, scraped_at := t,
        status := "error", error_message := e } := by
  simp [extract_job_detail, h]

/-- Witness for C3 at a concrete failing render. -/
theorem extract_job_detail_error_identity_only_witness :
    fetchPage (fun _ => Except.error "boom") (fun _ => Except.ok {}) "u" =
      Except.error "boom" ∧
    extract_job_detail (fun _ => Except.error "boom") (fun _ => Except.ok {})
        "u" "s" 3 "t" =
      { job_url := "u", search_url := "s", page_number := 3, scraped_at := "t",
        status := "error", error_message := "boom" } :=
  ⟨rfl, extract_job_detail_error_identity_only _ _ _ _ _ _ _ rfl⟩

/-! ## Claim C4 -/

/-- Claim C4 (corrected), counterexample to the claim as stated: when the
renderer raises an exception whose string form is empty, the produced job has
status `error` with an EMPTY `error_message`, contradicting the claim that
`status == error` implies the message is non-empty. -/
theorem status_error_empty_message_counterexample :
    (extract_job_detail (fun _ => Except.error "") (fun _ => Except.ok {})
        "u" "s" 0 "t").status = "error" ∧
    (extract_job_detail (fun _ => Except.error "") (fun _ => Except.ok {})
        "u" "s" 0 "t").error_message = "" := by
  exact ⟨rfl, rfl⟩

/-- Claim C4 (corrected, amended claim): for every job produced by
`extract_job_detail`, `status == ok` implies `error_message` is empty, and
`status == error` implies `error_message` equals the raised failure's message
verbatim — hence it is non-empty exactly when the exception's string form is
non-empty. -/
theorem status_error_message_relation
    (render : String → Except String String)
    (parse : String → Except String JobPage)
    (url s : String) (n : Nat) (t : String) :
    ((extract_job_detail render parse url s n t).status = "ok" →
      (extract_job_detail render parse url s n t).error_message = "") ∧
    ((extract_job_detail render parse url s n t).status = "error" →
      ∃ e, fetchPage render parse url = Except.error e ∧
        (extract_job_detail render parse url s n t).error_message = e) ∧
    (∀ e, fetchPage render parse url = Except.error e →
      ((extract_job_detail render parse url s n t).status = "error" ∧
        (extract_job_detail render parse url s n t).error_message = e ∧
        ((extract_job_detail render parse url s n t).error_message ≠ "" ↔ e ≠ ""))) := by
  cases h : fetchPage render parse url with
  | error e =>
    refine ⟨?_, ?_, ?_⟩
    · intro hs
      simp [extract_job_detail, h] at hs
    · intro _
      exact ⟨e, rfl, by simp [extract_job_detail, h]⟩
    · intro e' he'
      injection he' with h2
      subst h2
      simp [extract_job_detail, h]
  | ok page =>
    refine ⟨?_, ?_, ?_⟩
    · intro _
      simp [extract_job_detail, h]
    · intro hs
      simp [extract_job_detail, h] at hs
    · intro e' he'
      exact Except.noConfusion he'

/-- Witness for C4's amended theorem at a concrete failing render with a
non-empty message. -/
theorem status_error_message_relation_witness :
    (extract_job_detail (fun _ => Except.error "timeout") (fun _ => Except.ok {})
        "u" "s" 0 "t").status = "error" ∧
    (extract_job_detail (fun _ => Except.error "timeout") (fun _ => Except.ok {})
        "u" "s" 0 "t").error_message = "timeout" :=
  by
    have h := status_error_message_relation (fun _ => Except.error "timeout")
      (fun _ => Except.ok {}) "u" "s" 0 "t"
    have h2 := h.2.2 "timeout" rfl
    exact ⟨h2.1, h2.2.1⟩

/-! ## Claim C7 -/

/-- Claim C7 (corrected), counterexample to the claim as stated: a descriptor
that carries a leading space is NOT present verbatim in the fixed table, yet
the matcher returns the calendar attribute for it, because `_match_icon`
strips the input before comparing. -/
theorem match_icon_strip_counterexample :
    (∀ p ∈ SVG_ICON_PATHS, " M6 2a1 1 0 00-1 1v1H4a2 2 0 00-2 2v10" ≠ p.2) ∧
    match_icon " M6 2a1 1 0 00-1 1v1H4a2 2 0 00-2 2v10" = some "calendar" := by
  constructor
  · decide
  · decide

/-- Claim C7 (corrected, amended claim): the matcher returns no match for
empty input and for every descriptor whose stripped form is not present in
the fixed table; for a descriptor present verbatim it returns exactly that
descriptor's tagged attribute name.  Membership is decided by exact,
case-sensitive string equality of the stripped input. -/
theorem match_icon_lookup :
    match_icon "" = none ∧
    (∀ d : String, (∀ p ∈ SVG_ICON_PATHS, stripChars d.data ≠ p.2.data) →
      match_icon d = none) ∧
    (∀ name path : String, (name, path) ∈ SVG_ICON_PATHS →
      match_icon path = some name) := by
  refine ⟨rfl, ?_, ?_⟩
  · intro d hd
    unfold match_icon
    by_cases hempty : d.data = []
    · simp [hempty]
    · simp only [hempty, if_false]
      have : SVG_ICON_PATHS.find? (fun p => stripChars d.data = p.2.data) = none := by
        rw [List.find?_eq_none]
        intro p hp
        simpa using hd p hp
      simp [this]
  · intro name path hmem
    have h6 : (name, path) = ("calendar", "M6 2a1 1 0 00-1 1v1H4a2 2 0 00-2 2v10") ∨
        (name, path) = ("duration", "M12 8v4l3 3m6-3a9 9 0 11-18 0") ∨
        (name, path) = ("experience", "M21 13.255A23.931 23.931 0 0112 15") ∨
        (name, path) = ("location", "M17.657 16.657L13.414 20.9a1.998") ∨
        (name, path) = ("salary", "M12 8c-1.657 0-3 .895-3 2s1.343 2") ∨
        (name, path) = ("remote", "M8.111 16.404a5.5 5.5 0 017.778 0") := by
      simpa [SVG_ICON_PATHS] using hmem
    rcases h6 with h | h | h | h | h | h <;>
      (cases h; decide)

/-- Witness for C7's amended theorem: a descriptor absent from the table is
rejected, a descriptor present verbatim resolves to its own tag. -/
theorem match_icon_lookup_witness :
    match_icon "M99 99" = none ∧
    match_icon "M12 8v4l3 3m6-3a9 9 0 11-18 0" = some "duration" :=
  ⟨match_icon_lookup.2.1 "M99 99" (by decide),
   match_icon_lookup.2.2 "duration" "M12 8v4l3 3m6-3a9 9 0 11-18 0" (by decide)⟩

/-! ## Claim C8 -/

/-- Claim C8 (confirmed): header extraction assigns the first four non-empty
(stripped) lines of the header container's text positionally to title,
company name, company location and job category; missing lines leave the
remaining fields empty; and when the header block is absent (primary and
fallback selector both fail) all four fields are empty while the job's
status is still `ok` whenever the document itself rendered and parsed. -/
theorem extract_header_positional
    (txt : String)
    (render : String → Except String String)
    (parse : String → Except String JobPage)
    (page : JobPage) (url s : String) (n : Nat) (t : String) :
    (extract_header (some txt) =
      { title := ((nonEmptyLines txt).getD 0 "")
        company_name := ((nonEmptyLines txt).getD 1 "")
        company_location := ((nonEmptyLines txt).getD 2 "")
        job_category := ((nonEmptyLines txt).getD 3 "") }) ∧
    (extract_header none = {}) ∧
    (page.headerText = none → fetchPage render parse url = Except.ok page →
      ((extract_job_detail render parse url s n t).title = "" ∧
       (extract_job_detail render parse url s n t).company_name = "" ∧
       (extract_job_detail render parse url s n t).company_location = "" ∧
       (extract_job_detail render parse url s n t).job_category = "" ∧
       (extract_job_detail render parse url s n t).status = "ok")) := by
  refine ⟨?_, rfl, ?_⟩
  · simp [extract_header, List.getD]
  · intro hh hf
    simp [extract_job_detail, hf, hh, extract_header]

/-- Witness for C8 at a concrete header text with three non-empty lines and a
concrete header-less page. -/
theorem extract_header_positional_witness :
    extract_header (some "  Dev  \n\nACME\n Paris \n") =
      { title := "Dev", company_name := "ACME", company_location := "Paris",
        job_category := "" } ∧
    (extract_job_detail (fun _ => Except.ok "") (fun _ => Except.ok {})
        "u" "s" 0 "t").title = "" ∧
    (extract_job_detail (fun _ => Except.ok "") (fun _ => Except.ok {})
        "u" "s" 0 "t").status = "ok" := by
  have h := extract_header_positional "  Dev  \n\nACME\n Paris \n"
    (fun _ => Except.ok "") (fun _ => Except.ok ({} : JobPage)) {} "u" "s" 0 "t"
  have h3 := h.2.2 rfl rfl
  refine ⟨?_, h3.1, h3.2.2.2.2⟩
  rw [h.1]
  decide

/-! ## Claim C6 -/

/-- Claim C6 (corrected), counterexample to the claim as stated: two badge
elements both reading "Python" yield the skills string "Python, Python" —
duplicates are NOT removed among badge-sourced items, only tag-sourced items
are checked against the already-collected list — whereas the claim's global
deduplication predicts "Python". -/
theorem skills_badge_duplicate_counterexample :
    extract_skills ["Python", "Python"] [] = "Python, Python" ∧
    skills_spec_dedup_all ["Python", "Python"] [] = "Python" ∧
    extract_skills ["Python", "Python"] [] ≠
      skills_spec_dedup_all ["Python", "Python"] [] := by
  refine ⟨by decide, by decide, by decide⟩

/-- Claim C6 (corrected, amended claim): the skills field is the ", "-join of
the cleaned badge texts that are non-empty and shorter than 50 characters
(in order, badge duplicates kept), followed by the cleaned tag texts that are
non-empty, shorter than 50 characters, and distinct from every item already
collected (so tags are deduplicated against badges and earlier tags, while
badges are not deduplicated among themselves); items of length ≥ 50 are
discarded from both sources. -/
theorem extract_skills_characterization (badgeTexts tagTexts : List String) :
    extract_skills badgeTexts tagTexts =
      String.intercalate ", "
        (badgeItems badgeTexts ++ tagItemsAux (badgeItems badgeTexts) tagTexts) := by
  have hb : ∀ (l : List String) (acc : List String),
      l.foldl (fun acc b =>
        let t := clean_text b
        if t ≠ "" ∧ t.length < 50 then acc ++ [t] else acc) acc =
      acc ++ badgeItems l := by
    intro l
    induction l with
    | nil => intro acc; simp [badgeItems]
    | cons x xs ih =>
      intro acc
      rw [List.foldl_cons]
      show xs.foldl _
          (if clean_text x ≠ "" ∧ (clean_text x).length < 50
            then acc ++ [clean_text x] else acc) = _
      by_cases hx : clean_text x ≠ "" ∧ (clean_text x).length < 50
      · rw [if_pos hx, ih]
        show _ = acc ++ badgeItems (x :: xs)
        simp only [badgeItems, if_pos hx]
        simp
      · rw [if_neg hx, ih]
        show _ = acc ++ badgeItems (x :: xs)
        simp only [badgeItems, if_neg hx]
  have ht : ∀ (l : List String) (acc : List String),
      l.foldl (fun acc b =>
        let t := clean_text b
        if t ≠ "" ∧ t.length < 50 ∧ t ∉ acc then acc ++ [t] else acc) acc =
      acc ++ tagItemsAux acc l := by
    intro l
    induction l with
    | nil => intro acc; simp [tagItemsAux]
    | cons x xs ih =>
      intro acc
      rw [List.foldl_cons]
      show xs.foldl _
          (if clean_text x ≠ "" ∧ (clean_text x).length < 50 ∧ clean_text x ∉ acc
            then acc ++ [clean_text x] else acc) = _
      by_cases hx : clean_text x ≠ "" ∧ (clean_text x).length < 50 ∧ clean_text x ∉ acc
      · rw [if_pos hx, ih]
        show _ = acc ++ tagItemsAux acc (x :: xs)
        simp only [tagItemsAux, if_pos hx]
        simp
      · rw [if_neg hx, ih]
        show _ = acc ++ tagItemsAux acc (x :: xs)
        simp only [tagItemsAux, if_neg hx]
  simp only [extract_skills, hb, ht, List.nil_append]

/-! ## Orchestrator helpers -/

/-- Folding a two-accumulator append step is mapping. -/
theorem foldl_pair_append {α β γ : Type} (f : α → β) (g : α → γ) :
    ∀ (l : List α) (a : List β) (b : List γ),
      l.foldl (fun acc x => (acc.1 ++ [f x], acc.2 ++ [g x])) (a, b) =
        (a ++ l.map f, b ++ l.map g) := by
  intro l
  induction l with
  | nil => intro a b; simp
  | cons x xs ih =>
    intro a b
    rw [List.foldl_cons, ih]
    simp

/-- Lemma: `extract_all_jobs` processes the links in order: the job list is the map
of `extract_job_detail` over the links, and the callback trace records
`(job_links.index(url) + 1, total, job)` for each link in order. -/
theorem extract_all_jobs_eq_map (render : String → Except String String)
    (parse : String → Except String JobPage)
    (links : List String) (s t : String) :
    extract_all_jobs render parse links s t =
      (links.map (fun url => extract_job_detail render parse url s 0 t),
       links.map (fun url => (links.indexOf url + 1, links.length,
         extract_job_detail render parse url s 0 t))) := by
  have h := foldl_pair_append
    (fun url => extract_job_detail render parse url s 0 t)
    (fun url => (links.indexOf url + 1, links.length,
      extract_job_detail render parse url s 0 t))
    links [] []
  simpa [extract_all_jobs] using h

/-- The extractor preserves the URL it was handed, whatever the outcome. -/
theorem extract_job_detail_job_url (render : String → Except String String)
    (parse : String → Except String JobPage)
    (url s : String) (n : Nat) (t : String) :
    (extract_job_detail render parse url s n t).job_url = url := by
  unfold extract_job_detail
  cases fetchPage render parse url <;> rfl

/-- The extractor's status is `error` exactly when the fetch fails, `ok`
otherwise. -/
theorem extract_job_detail_status (render : String → Except String String)
    (parse : String → Except String JobPage)
    (url s : String) (n : Nat) (t : String) :
    (extract_job_detail render parse url s n t).status =
      (match fetchPage render parse url with
        | Except.error _ => "error"
        | Except.ok _ => "ok") := by
  unfold extract_job_detail
  cases fetchPage render parse url <;> rfl

/-! ## Claim C5 -/

/-- Claim C5 (corrected), counterexample to the claim as stated: for the
input link list ["u", "u"] (with a renderer that succeeds), the two callback
invocations both receive first argument 1, not the 1-based completion
sequence 1, 2 — the code passes `job_links.index(url) + 1`, the position of
the first occurrence of the URL in the input list. -/
theorem callback_index_counterexample :
    ((extract_all_jobs (fun _ => Except.ok "") (fun _ => Except.ok {})
        ["u", "u"] "" "t").2.map (fun r => r.1)) = [1, 1] ∧
    ((extract_all_jobs (fun _ => Except.ok "") (fun _ => Except.ok {})
        ["u", "u"] "" "t").2.map (fun r => r.1)) ≠
      (List.range ((extract_all_jobs (fun _ => Except.ok "") (fun _ => Except.ok {})
        ["u", "u"] "" "t").2.length)).map (fun m => m + 1) := by
  constructor
  · decide
  · decide

/-- Claim C5 (corrected, amended claim): with a callback supplied, the
callback is invoked exactly once per completed extraction; its first
argument is 1 plus the position of the FIRST occurrence of the completed
job's URL in the input list (so duplicate input links repeat an index and
the value matches the completion sequence number only when links are
distinct and completion follows input order); the other arguments are the
batch total and the completed job. -/
theorem extract_all_jobs_callback_trace (render : String → Except String String)
    (parse : String → Except String JobPage)
    (links : List String) (s t : String) :
    ((extract_all_jobs render parse links s t).2).length = links.length ∧
    ∀ i : Nat, ((extract_all_jobs render parse links s t).2)[i]? =
      (links[i]?).map (fun url => (links.indexOf url + 1, links.length,
        extract_job_detail render parse url s 0 t)) := by
  rw [extract_all_jobs_eq_map]
  constructor
  · simp
  · intro i
    simp [List.getElem?_map]

/-! ## Claim C1 -/

/-- Claim C1 (confirmed): for a batch of N links where the renderer fails for
exactly k of them and the other N−k render and parse successfully, the
orchestrator returns exactly N jobs — one per input link — with exactly k of
status `error` and N−k of status `ok`; per-link failures never abort the
batch. -/
theorem extract_all_jobs_batch_counts (render : String → Except String String)
    (parse : String → Except String JobPage)
    (links : List String) (s t : String) (k : Nat)
    (hk : links.countP (fun u => match render u with
        | Except.error _ => true
        | Except.ok _ => false) = k)
    (hp : ∀ u ∈ links, ∀ html, render u = Except.ok html →
        ∃ pg, parse html = Except.ok pg) :
    (extract_all_jobs render parse links s t).1.length = links.length ∧
    (extract_all_jobs render parse links s t).1.countP
      (fun j => j.status == "error") = k ∧
    (extract_all_jobs render parse links s t).1.countP
      (fun j => j.status == "ok") = links.length - k := by
  rw [extract_all_jobs_eq_map]
  have hstat : ∀ u ∈ links,
      ((extract_job_detail render parse u s 0 t).status == "error") =
        (match render u with
          | Except.error _ => true
          | Except.ok _ => false) := by
    intro u hu
    rw [extract_job_detail_status]
    cases hr : render u with
    | error e =>
      have : fetchPage render parse u = Except.error e := by
        simp [fetchPage, hr]
      rw [this]
      rfl
    | ok html =>
      obtain ⟨pg, hpg⟩ := hp u hu html hr
      have : fetchPage render parse u = Except.ok pg := by
        simp [fetchPage, hr, hpg]
      rw [this]
      rfl
  have hok : ∀ u ∈ links,
      ((extract_job_detail render parse u s 0 t).status == "ok") =
        !((extract_job_detail render parse u s 0 t).status == "error") := by
    intro u hu
    rw [extract_job_detail_status]
    cases fetchPage render parse u <;> rfl
  refine ⟨by simp, ?_, ?_⟩
  · rw [List.countP_map]
    rw [← hk]
    apply List.countP_congr
    intro u hu
    simp only [Function.comp]
    rw [hstat u hu]
  · have herr : (links.map (fun url => extract_job_detail render parse url s 0 t)).countP
        (fun j => j.status == "error") = k := by
      rw [List.countP_map, ← hk]
      apply List.countP_congr
      intro u hu
      simp only [Function.comp]
      rw [hstat u hu]
    have hco : (links.map (fun url => extract_job_detail render parse url s 0 t)).countP
        (fun j => j.status == "ok") =
        (links.map (fun url => extract_job_detail render parse url s 0 t)).countP
        (fun j => decide ¬((j.status == "error") = true)) := by
      apply List.countP_congr
      intro j hj
      obtain ⟨u, hu, rfl⟩ := List.mem_map.mp hj
      rw [hok u hu]
      simp
    have hlen := List.length_eq_countP_add_countP
      (fun j : FreeWorkJob => j.status == "error")
      (links.map (fun url => extract_job_detail render parse url s 0 t))
    have hl : (links.map (fun url => extract_job_detail render parse url s 0 t)).length =
        links.length := by simp
    rw [hco]
    omega

/-- Witness for C1: a concrete batch of two links where the renderer fails for
exactly the first one. -/
theorem extract_all_jobs_batch_counts_witness :
    (extract_all_jobs (fun v => if v = "a" then Except.error "boom" else Except.ok "")
        (fun _ => Except.ok {}) ["a", "b"] "s" "t").1.length = 2 ∧
    (extract_all_jobs (fun v => if v = "a" then Except.error "boom" else Except.ok "")
        (fun _ => Except.ok {}) ["a", "b"] "s" "t").1.countP
      (fun j => j.status == "error") = 1 ∧
    (extract_all_jobs (fun v => if v = "a" then Except.error "boom" else Except.ok "")
        (fun _ => Except.ok {}) ["a", "b"] "s" "t").1.countP
      (fun j => j.status == "ok") = 1 := by
  have h := extract_all_jobs_batch_counts
    (fun v => if v = "a" then Except.error "boom" else Except.ok "")
    (fun _ => Except.ok ({} : JobPage)) ["a", "b"] "s" "t" 1
    (by decide)
    (fun u hu html hh => ⟨{}, rfl⟩)
  exact ⟨h.1, h.2.1, h.2.2⟩

/-! ## Pagination walker helpers -/

/-- A string with a non-empty character list is not the empty string. -/
theorem string_ne_empty_of_data_ne (s : String) (h : s.data ≠ []) : s ≠ "" := by
  intro he
  rw [he] at h
  exact h rfl

/-- A successful substring test against a non-empty pattern forces a non-empty
haystack. -/
theorem containsSeq_ne_nil (pat : List Char) (hpat : pat ≠ []) :
    ∀ l : List Char, containsSeq pat l = true → l ≠ [] := by
  intro l hc hl
  subst hl
  simp [containsSeq, List.isEmpty_iff] at hc
  exact hpat hc

/-- Every link produced by the per-page link extraction is non-empty. -/
theorem extract_job_links_ne_empty (p : SearchPage) :
    ∀ x ∈ extract_job_links_from_page p, x ≠ "" := by
  unfold extract_job_links_from_page
  cases p.resultAnchorHrefs with
  | none => simp
  | some hrefs =>
    simp only []
    have hstep : ∀ (hs : List String) (acc : List String),
        (∀ y ∈ acc, y ≠ "") →
        ∀ y ∈ hs.foldl (fun links href =>
          if containsSeq JOB_LINK_MARKER.data href.data then
            let full := if startsWithStr "http" href then href else BASE_URL ++ href
            if full ∉ links then links ++ [full] else links
          else links) acc, y ≠ "" := by
      intro hs
      induction hs with
      | nil => intro acc hacc y hy; exact hacc y hy
      | cons h rest ih =>
        intro acc hacc y
        rw [List.foldl_cons]
        apply ih
        intro z hz
        by_cases hc : containsSeq JOB_LINK_MARKER.data h.data = true
        · simp only [hc, if_true] at hz
          have hfull : (if startsWithStr "http" h then h else BASE_URL ++ h) ≠ "" := by
            by_cases hs2 : startsWithStr "http" h
            · rw [if_pos hs2]
              apply string_ne_empty_of_data_ne
              exact containsSeq_ne_nil JOB_LINK_MARKER.data (by decide) h.data hc
            · rw [if_neg hs2]
              apply string_ne_empty_of_data_ne
              rw [String.data_append]
              simp
              intro hB
              exact absurd hB (by decide)
            
          by_cases hmem : (if startsWithStr "http" h then h else BASE_URL ++ h) ∉ acc
          · simp only [hmem, if_true] at hz
            rcases List.mem_append.mp hz with hzl | hzr
            · exact hacc z hzl
            · rw [List.mem_singleton] at hzr
              subst hzr
              exact hfull
          · simp only [hmem, if_false] at hz
            exact hacc z hz
        · rw [if_neg hc] at hz
          exact hacc z hz
    exact hstep hrefs [] (by simp)

/-- The per-page link extraction never emits the same URL twice: within-page
duplicates are suppressed by the `seen` membership test. -/
theorem extract_job_links_nodup (p : SearchPage) :
    (extract_job_links_from_page p).Nodup := by
  unfold extract_job_links_from_page
  cases p.resultAnchorHrefs with
  | none => simp
  | some hrefs =>
    simp only []
    have hstep : ∀ (hs : List String) (acc : List String), acc.Nodup →
        (hs.foldl (fun links href =>
          if containsSeq JOB_LINK_MARKER.data href.data then
            let full := if startsWithStr "http" href then href else BASE_URL ++ href
            if full ∉ links then links ++ [full] else links
          else links) acc).Nodup := by
      intro hs
      induction hs with
      | nil => intro acc hacc; exact hacc
      | cons h rest ih =>
        intro acc hacc
        rw [List.foldl_cons]
        apply ih
        by_cases hc : containsSeq JOB_LINK_MARKER.data h.data = true
        · simp only [hc, if_true]
          by_cases hmem : (if startsWithStr "http" h then h else BASE_URL ++ h) ∉ acc
          · simp only [hmem, if_true]
            simp [List.nodup_append, hacc, hmem]
          · simp only [hmem, if_false]
            exact hacc
        · rw [if_neg hc]
          exact hacc
    exact hstep hrefs [] (by simp)

/-- All links accumulated by the page walk are non-empty. -/
theorem collect_fold_ne_empty (renderPage : Nat → Except String SearchPage)
    (total : Nat) :
    ∀ (pages : List Nat) (acc : List String × List (Nat × Nat × Nat)),
      (∀ y ∈ acc.1, y ≠ "") →
      ∀ y ∈ (pages.foldl (fun acc pageNum =>
        match renderPage pageNum with
        | Except.ok pg =>
          let ls := extract_job_links_from_page pg
          (acc.1 ++ ls, acc.2 ++ [(pageNum, total, ls.length)])
        | Except.error _ => (acc.1, acc.2 ++ [(pageNum, total, 0)])) acc).1,
      y ≠ "" := by
  intro pages
  induction pages with
  | nil => intro acc hacc y hy; exact hacc y hy
  | cons p rest ih =>
    intro acc hacc y
    rw [List.foldl_cons]
    apply ih
    cases hr : renderPage p with
    | ok pg =>
      simp only [hr]
      intro z hz
      rcases List.mem_append.mp hz with hzl | hzr
      · exact hacc z hzl
      · exact extract_job_links_ne_empty pg z hzr
    | error e =>
      simp only [hr]
      exact hacc

/-- All links returned by a successful `collect_all_job_links` are
non-empty. -/
theorem collect_all_job_links_ne_empty
    (renderFirst : Except String SearchPage)
    (renderPage : Nat → Except String SearchPage)
    (max_pages : Nat) (links : List String) (trace : List (Nat × Nat × Nat))
    (hc : collect_all_job_links renderFirst renderPage max_pages =
      Except.ok (links, trace)) :
    ∀ x ∈ links, x ≠ "" := by
  cases renderFirst with
  | error e => exact absurd hc (by simp [collect_all_job_links])
  | ok first =>
    unfold collect_all_job_links at hc
    injection hc with hc
    intro x hx
    have hx1 : x ∈ (Prod.mk links trace).1 := hx
    rw [← hc] at hx1
    revert hx1
    apply collect_fold_ne_empty
    intro y hy
    exact extract_job_links_ne_empty first y hy

/-! ## Claim C2 -/

/-- Claim C2 (corrected), counterexample to the claim as stated: a crawl run
over two result pages that both list the same job href succeeds and returns
two jobs carrying the SAME `job_url` — link deduplication happens only within
a page, and `main` passes the collected list to the extraction phase without
removing cross-page duplicates. -/
theorem crawl_run_duplicate_url_counterexample :
    (main_run
        (Except.ok { paginationDataPages := ["2"], resultAnchorHrefs := some ["/job-mission/x"] })
        (fun _ => Except.ok { paginationDataPages := ["2"], resultAnchorHrefs := some ["/job-mission/x"] })
        (fun _ => Except.ok "") (fun _ => Except.ok {}) 0 "s" "t").map
      (fun js => js.map (fun j => j.job_url)) =
      Except.ok ["https://www.free-work.com/job-mission/x",
                 "https://www.free-work.com/job-mission/x"] ∧
    ¬ (["https://www.free-work.com/job-mission/x",
        "https://www.free-work.com/job-mission/x"] : List String).Nodup := by
  constructor
  · decide
  · decide

/-- Claim C2 (corrected, amended claim): in one crawl run's result set every
job's `job_url` is non-empty and equals its input link, the result carries
exactly the collected link list (one job per link, no deduplication between
the collection and extraction phases), and duplicate URLs are suppressed only
WITHIN one page — a URL reappearing on a later page yields another job with
the same `job_url`. -/
theorem crawl_run_url_characterization
    (renderFirst : Except String SearchPage)
    (renderPage : Nat → Except String SearchPage)
    (render : String → Except String String)
    (parse : String → Except String JobPage)
    (max_pages : Nat) (s t : String)
    (links : List String) (trace : List (Nat × Nat × Nat))
    (jobs : List FreeWorkJob)
    (hc : collect_all_job_links renderFirst renderPage max_pages =
      Except.ok (links, trace))
    (hm : main_run renderFirst renderPage render parse max_pages s t =
      Except.ok jobs) :
    (∀ j ∈ jobs, j.job_url ≠ "") ∧
    (jobs.map (fun j => j.job_url) = if links = [] then [] else links) ∧
    (∀ p : SearchPage, (extract_job_links_from_page p).Nodup) := by
  have hne := collect_all_job_links_ne_empty renderFirst renderPage max_pages
    links trace hc
  simp only [main_run, hc] at hm
  by_cases hl : links = []
  · rw [if_pos hl] at hm
    injection hm with hm
    subst hm
    exact ⟨by simp, by rw [if_pos hl]; simp, fun p => extract_job_links_nodup p⟩
  · rw [if_neg hl] at hm
    injection hm with hm
    subst hm
    rw [extract_all_jobs_eq_map]
    refine ⟨?_, ?_, fun p => extract_job_links_nodup p⟩
    · intro j hj
      obtain ⟨u, hu, rfl⟩ := List.mem_map.mp hj
      rw [extract_job_detail_job_url]
      exact hne u hu
    · rw [if_neg hl, List.map_map]
      have : ((fun j : FreeWorkJob => j.job_url) ∘
          (fun url => extract_job_detail render parse url s 0 t)) = fun u => u := by
        funext u
        exact extract_job_detail_job_url render parse u s 0 t
      rw [this]
      exact List.map_id links

/-- Witness for C2's amended theorem at a concrete single-page crawl with two
distinct job links. -/
theorem crawl_run_url_characterization_witness :
    (main_run (Except.ok { paginationDataPages := [], resultAnchorHrefs := some ["/job-mission/x", "/job-mission/y"] })
      (fun _ => Except.error "no page") (fun _ => Except.ok "")
      (fun _ => Except.ok {}) 0 "s" "t").map
        (fun js => js.map (fun j => j.job_url)) =
      Except.ok ["https://www.free-work.com/job-mission/x",
                 "https://www.free-work.com/job-mission/y"] ∧
    (∀ j ∈ (extract_all_jobs (fun _ => Except.ok "") (fun _ => Except.ok {})
        ["https://www.free-work.com/job-mission/x",
         "https://www.free-work.com/job-mission/y"] "s" "t").1,
      j.job_url ≠ "") := by
  have h := crawl_run_url_characterization
    (Except.ok { paginationDataPages := [], resultAnchorHrefs := some ["/job-mission/x", "/job-mission/y"] })
    (fun _ => Except.error "no page") (fun _ => Except.ok "")
    (fun _ => Except.ok ({} : JobPage)) 0 "s" "t"
    ["https://www.free-work.com/job-mission/x",
     "https://www.free-work.com/job-mission/y"]
    [(1, 1, 2)]
    ((extract_all_jobs (fun _ => Except.ok "") (fun _ => Except.ok {})
      ["https://www.free-work.com/job-mission/x",
       "https://www.free-work.com/job-mission/y"] "s" "t").1)
    (by decide) (by decide)
  constructor
  · decide
  · exact h.1

/-! ## Query-dictionary helpers for `_build_page_url` -/

/-- Unfolding `gValues` over a cons. -/
theorem gValues_cons (k : String) (e : String × List String)
    (g : List (String × List String)) :
    gValues k (e :: g) = (if e.1 = k then e.2 else []) ++ gValues k g := by
  by_cases h : e.1 = k <;> simp [gValues, List.filterMap_cons, h]

/-- Unfolding `queryValues` over a cons. -/
theorem queryValues_cons (k : String) (p : String × String)
    (q : List (String × String)) :
    queryValues k (p :: q) = (if p.1 = k then [p.2] else []) ++ queryValues k q := by
  by_cases h : p.1 = k <;> simp [queryValues, List.filterMap_cons, h]

/-- A key absent from the dictionary carries no values. -/
theorem gValues_of_not_mem (k : String) :
    ∀ g : List (String × List String), k ∉ qsKeys g → gValues k g = [] := by
  intro g
  induction g with
  | nil => intro _; simp [gValues]
  | cons e rest ih =>
    intro hk
    rw [gValues_cons]
    have h1 : e.1 ≠ k := by
      intro h
      exact hk (by simp [qsKeys, h])
    rw [if_neg h1, ih (fun hm => hk (by simp [qsKeys] at hm ⊢; exact Or.inr hm))]
    rfl

/-- The keys after an insert: unchanged when the key is present, appended
otherwise. -/
theorem qsKeys_qsInsert (k v : String) :
    ∀ g : List (String × List String),
      qsKeys (qsInsert g k v) =
        (if k ∈ qsKeys g then qsKeys g else qsKeys g ++ [k]) := by
  intro g
  induction g with
  | nil => simp [qsInsert, qsKeys]
  | cons e rest ih =>
    by_cases h : e.1 = k
    · simp [qsInsert, h, qsKeys]
    · have hmem : (k ∈ qsKeys (e :: rest)) = (k ∈ qsKeys rest) := by
        simp [qsKeys]
        intro hek
        exact absurd hek.symm h
      simp only [qsInsert, if_neg h, qsKeys, List.map_cons]
      by_cases h2 : k ∈ qsKeys rest
      · have hin : k ∈ qsKeys (e :: rest) := by simp [qsKeys] at h2 ⊢; exact Or.inr h2
        rw [if_pos h2] at ih
        simp only [qsKeys] at ih
        rw [ih]
        simp only [qsKeys, List.map_cons] at hin
        rw [if_pos hin]
      · have hout : k ∉ qsKeys (e :: rest) := by
          simp [qsKeys] at h2 ⊢
          exact ⟨fun hek => absurd hek.symm h, h2⟩
        rw [if_neg h2] at ih
        simp only [qsKeys] at ih
        rw [ih]
        simp only [qsKeys, List.map_cons] at hout
        rw [if_neg hout]
        simp

/-- Inserting preserves distinctness of the keys. -/
theorem qsKeys_nodup_qsInsert (k v : String)
    (g : List (String × List String)) (h : (qsKeys g).Nodup) :
    (qsKeys (qsInsert g k v)).Nodup := by
  rw [qsKeys_qsInsert]
  by_cases hm : k ∈ qsKeys g
  · rw [if_pos hm]; exact h
  · rw [if_neg hm]
    simp [List.nodup_append, h, hm]

/-- Values of a key after an insert, given distinct keys. -/
theorem gValues_qsInsert (k k' v : String) :
    ∀ g : List (String × List String), (qsKeys g).Nodup →
      gValues k (qsInsert g k' v) =
        gValues k g ++ (if k' = k then [v] else []) := by
  intro g
  induction g with
  | nil =>
    intro _
    by_cases h : k' = k <;> simp [qsInsert, gValues, List.filterMap_cons, h]
  | cons e rest ih =>
    intro hnd
    have hnd2 := List.nodup_cons.mp hnd
    have hndr : (qsKeys rest).Nodup := hnd2.2
    by_cases h : e.1 = k'
    · simp only [qsInsert, if_pos h]
      rw [gValues_cons, gValues_cons]
      by_cases hk : k' = k
      · have hek : e.1 = k := by rw [h, hk]
        rw [if_pos hek, if_pos hek, if_pos hk]
        have hrest : gValues k rest = [] := by
          apply gValues_of_not_mem
          rw [← hek]
          exact hnd2.1
        rw [hrest]
        simp
      · have hek : e.1 ≠ k := by rw [h]; exact hk
        rw [if_neg hek, if_neg hek, if_neg hk]
        simp
    · simp only [qsInsert, if_neg h]
      rw [gValues_cons, gValues_cons, ih hndr]
      simp

/-- The grouping fold of `parse_qs` keeps the keys distinct. -/
theorem parse_qs_fold_keys_nodup :
    ∀ (q : List (String × String)) (acc : List (String × List String)),
      (qsKeys acc).Nodup →
      (qsKeys (q.foldl (fun a p => qsInsert a p.1 p.2) acc)).Nodup := by
  intro q
  induction q with
  | nil => intro acc h; exact h
  | cons p rest ih =>
    intro acc h
    rw [List.foldl_cons]
    exact ih _ (qsKeys_nodup_qsInsert p.1 p.2 acc h)

/-- The keys of `parse_qs` are distinct. -/
theorem parse_qs_keys_nodup (q : List (String × String)) :
    (qsKeys (parse_qs q)).Nodup := by
  unfold parse_qs
  exact parse_qs_fold_keys_nodup _ [] (by simp [qsKeys])

/-- The grouping fold accumulates values per key in order. -/
theorem gValues_parse_qs_fold (k : String) :
    ∀ (q : List (String × String)) (acc : List (String × List String)),
      (qsKeys acc).Nodup →
      gValues k (q.foldl (fun a p => qsInsert a p.1 p.2) acc) =
        gValues k acc ++ queryValues k q := by
  intro q
  induction q with
  | nil => intro acc _; simp [queryValues]
  | cons p rest ih =>
    intro acc hacc
    rw [List.foldl_cons, ih _ (qsKeys_nodup_qsInsert p.1 p.2 acc hacc),
      gValues_qsInsert k p.1 p.2 acc hacc, queryValues_cons]
    by_cases h : p.1 = k <;> simp [h]

/-- Lemma: `parse_qs` preserves per-key values, minus the blank ones. -/
theorem gValues_parse_qs (k : String) (q : List (String × String)) :
    gValues k (parse_qs q) = (queryValues k q).filter (fun v => v ≠ "") := by
  unfold parse_qs
  rw [gValues_parse_qs_fold k _ [] (by simp [qsKeys])]
  have h : ∀ q' : List (String × String),
      queryValues k (q'.filter (fun p => p.2 ≠ "")) =
        (queryValues k q').filter (fun v => v ≠ "") := by
    intro q'
    induction q' with
    | nil => simp [queryValues]
    | cons p rest ih =>
      by_cases hb : p.2 = ""
      · rw [List.filter_cons_of_neg (by simp [hb]), queryValues_cons]
        by_cases hk : p.1 = k
        · rw [if_pos hk]
          simp only [List.singleton_append]
          rw [List.filter_cons_of_neg (by simp [hb])]
          exact ih
        · rw [if_neg hk]
          simp only [List.nil_append]
          exact ih
      · rw [List.filter_cons_of_pos (by simp [hb]), queryValues_cons,
          queryValues_cons]
        by_cases hk : p.1 = k
        · rw [if_pos hk]
          simp only [List.singleton_append]
          rw [List.filter_cons_of_pos (by simp [hb]), ih]
        · rw [if_neg hk]
          simp only [List.nil_append]
          exact ih
  rw [h]
  simp [gValues]

/-- Setting the `page` key leaves every other key's values unchanged. -/
theorem gValues_qsSetPage_other (k v : String) (hk : k ≠ "page") :
    ∀ g : List (String × List String),
      gValues k (qsSetPage g v) = gValues k g := by
  intro g
  induction g with
  | nil =>
    rw [show qsSetPage [] v = [("page", [v])] from rfl, gValues_cons,
      if_neg (fun hh => hk hh.symm)]
    simp
  | cons e rest ih =>
    by_cases h : e.1 = "page"
    · simp only [qsSetPage, if_pos h]
      rw [gValues_cons, gValues_cons]
      have h1 : ¬ ("page" = k) := fun hh => hk hh.symm
      rw [if_neg h1, if_neg (by rw [h]; exact h1)]
    · simp only [qsSetPage, if_neg h]
      rw [gValues_cons, gValues_cons, ih]

/-- Setting the `page` key forces exactly one `page` value when the keys are
distinct. -/
theorem gValues_qsSetPage_page (v : String) :
    ∀ g : List (String × List String), (qsKeys g).Nodup →
      gValues "page" (qsSetPage g v) = [v] := by
  intro g
  induction g with
  | nil => intro _; simp [qsSetPage, gValues, List.filterMap_cons]
  | cons e rest ih =>
    intro hnd
    have hnd2 := List.nodup_cons.mp hnd
    by_cases h : e.1 = "page"
    · simp only [qsSetPage, if_pos h]
      rw [gValues_cons, if_pos rfl]
      have hrest : gValues "page" rest = [] := by
        apply gValues_of_not_mem
        rw [← h]
        exact hnd2.1
      rw [hrest]
      simp
    · simp only [qsSetPage, if_neg h]
      rw [gValues_cons, if_neg h, ih hnd2.2]
      simp

/-- Re-encoding the grouped dictionary exposes exactly its values. -/
theorem queryValues_urlencode (k : String) :
    ∀ g : List (String × List String),
      queryValues k (urlencode_doseq g) = gValues k g := by
  intro g
  induction g with
  | nil => simp [urlencode_doseq, queryValues, gValues]
  | cons e rest ih =>
    have hflat : urlencode_doseq (e :: rest) =
        e.2.map (fun v => (e.1, v)) ++ urlencode_doseq rest := by
      simp [urlencode_doseq]
    rw [hflat, gValues_cons]
    unfold queryValues
    rw [List.filterMap_append]
    unfold queryValues at ih
    rw [ih]
    congr 1
    rw [List.filterMap_map]
    by_cases h : e.1 = k
    · rw [if_pos h]
      have : ((fun p : String × String => if p.1 = k then some p.2 else none) ∘
          (fun v => (e.1, v))) = fun v => some v := by
        funext v
        simp [Function.comp, h]
      rw [this]
      simp
    · rw [if_neg h]
      have : ((fun p : String × String => if p.1 = k then some p.2 else none) ∘
          (fun v => (e.1, v))) = fun _ => none := by
        funext v
        simp [Function.comp, h]
      rw [this]
      simp

/-! ## Claim C10 -/

/-- Claim C10 (corrected), counterexample to the claim as stated: a query
parameter whose value is blank (`?a=`) is DROPPED by `_build_page_url` —
`parse_qs` discards blank values before re-encoding — so its value list is
not left unchanged. -/
theorem build_page_url_blank_param_counterexample :
    queryValues "a" (build_page_url { scheme := "https", netloc := "h", path := "/p", pathParams := "", query := [("a", ""), ("b", "1")], fragment := "f" } 2).query = [] ∧
    queryValues "a" ([("a", ""), ("b", "1")] : List (String × String)) = [""] ∧
    ([] : List String) ≠ [""] := by
  refine ⟨by decide, by decide, by decide⟩

/-- Claim C10 (corrected, amended claim): `_build_page_url` returns a URL
whose `page` query parameter carries exactly the given page number, leaves
the scheme, network location, path, path-params and fragment unchanged, and
preserves the values of every other query parameter EXCEPT that parameters
with blank values are dropped (each other key's value list is filtered to
its non-blank values). -/
theorem build_page_url_frame (u : UrlParts) (page : Nat) :
    (build_page_url u page).scheme = u.scheme ∧
    (build_page_url u page).netloc = u.netloc ∧
    (build_page_url u page).path = u.path ∧
    (build_page_url u page).pathParams = u.pathParams ∧
    (build_page_url u page).fragment = u.fragment ∧
    queryValues "page" (build_page_url u page).query = [toString page] ∧
    (∀ k : String, k ≠ "page" →
      queryValues k (build_page_url u page).query =
        (queryValues k u.query).filter (fun v => v ≠ "")) := by
  refine ⟨rfl, rfl, rfl, rfl, rfl, ?_, ?_⟩
  · show queryValues "page"
      (urlencode_doseq (qsSetPage (parse_qs u.query) (toString page))) = _
    rw [queryValues_urlencode,
      gValues_qsSetPage_page (toString page) (parse_qs u.query)
        (parse_qs_keys_nodup u.query)]
  · intro k hk
    show queryValues k
      (urlencode_doseq (qsSetPage (parse_qs u.query) (toString page))) = _
    rw [queryValues_urlencode, gValues_qsSetPage_other k (toString page) hk,
      gValues_parse_qs]

/-- Witness for C10's amended theorem at a concrete URL. -/
theorem build_page_url_frame_witness :
    queryValues "page" (build_page_url { scheme := "https", netloc := "h", path := "/p", pathParams := "", query := [("q", "dev"), ("page", "1")], fragment := "" } 3).query = ["3"] ∧
    queryValues "q" (build_page_url { scheme := "https", netloc := "h", path := "/p", pathParams := "", query := [("q", "dev"), ("page", "1")], fragment := "" } 3).query = ["dev"] := by
  have h := build_page_url_frame { scheme := "https", netloc := "h", path := "/p", pathParams := "", query := [("q", "dev"), ("page", "1")], fragment := "" } 3
  refine ⟨(h.2.2.2.2.2.1).trans (by decide), ?_⟩
  rw [h.2.2.2.2.2.2 "q" (by decide)]
  decide

/-! ## Normalizer structure lemmas (for Claim C9) -/

/-- Dropping leading whitespace leaves a whitespace-free head. -/
theorem headOk_dropWhile (l : List Char) : headOk (l.dropWhile isWs) = true := by
  induction l with
  | nil => rfl
  | cons c rest ih =>
    by_cases h : isWs c = true
    · rw [List.dropWhile_cons_of_pos h]
      exact ih
    · rw [List.dropWhile_cons_of_neg h]
      simp [headOk, h]

/-- The last element of a snoc decides `lastNonWs`. -/
theorem lastNonWs_append_singleton (c : Char) :
    ∀ zs : List Char, lastNonWs (zs ++ [c]) = !isWs c := by
  intro zs
  induction zs with
  | nil => rfl
  | cons z rest ih =>
    have h : lastNonWs (z :: (rest ++ [c])) = lastNonWs (rest ++ [c]) := by
      cases hz : rest ++ [c] with
      | nil => exact absurd hz (by simp)
      | cons a t => rfl
    rw [List.cons_append, h, ih]

/-- A nonempty list on the left fixes the head of an append. -/
theorem headOk_append_left (x y : List Char) (hx : x ≠ []) :
    headOk (x ++ y) = headOk x := by
  cases x with
  | nil => exact absurd rfl hx
  | cons c rest => rfl

/-- A list whose end is clean reverses to a list whose head is clean. -/
theorem headOk_reverse :
    ∀ m : List Char, lastNonWs m = true → headOk m.reverse = true := by
  intro m
  induction m with
  | nil => intro _; rfl
  | cons c rest ih =>
    intro h
    cases rest with
    | nil => exact h
    | cons d r2 =>
      have h2 : lastNonWs (d :: r2) = true := h
      have hrev : (c :: d :: r2).reverse = (d :: r2).reverse ++ [c] := by
        simp
      rw [hrev, headOk_append_left _ _ (by simp)]
      exact ih h2

/-- Stripping leaves a whitespace-free head. -/
theorem headOk_stripChars (l : List Char) : headOk (stripChars l) = true := by
  unfold stripChars
  cases hm : l.dropWhile isWs with
  | nil => rfl
  | cons c rest =>
    have hc : isWs c = false := by
      have := headOk_dropWhile l
      rw [hm] at this
      simpa [headOk] using this
    rw [show (c :: rest).reverse = rest.reverse ++ [c] from by simp,
      List.dropWhile_append]
    by_cases he : (rest.reverse.dropWhile isWs).isEmpty = true
    · rw [if_pos he, List.dropWhile_cons_of_neg (by simp [hc])]
      simp [headOk, hc]
    · rw [if_neg he]
      rw [show ((rest.reverse.dropWhile isWs) ++ [c]).reverse =
        c :: (rest.reverse.dropWhile isWs).reverse from by simp]
      simp [headOk, hc]

/-- Stripping leaves a whitespace-free end. -/
theorem lastNonWs_stripChars (l : List Char) :
    lastNonWs (stripChars l) = true := by
  unfold stripChars
  cases hy : (l.dropWhile isWs).reverse.dropWhile isWs with
  | nil => rfl
  | cons c rest =>
    have hc : isWs c = false := by
      have := headOk_dropWhile (l.dropWhile isWs).reverse
      rw [hy] at this
      simpa [headOk] using this
    rw [show (c :: rest).reverse = rest.reverse ++ [c] from by simp,
      lastNonWs_append_singleton]
    simp [hc]

/-- Collapsing preserves a whitespace-free head. -/
theorem headOk_collapse (m : List Char) (h : headOk m = true) :
    headOk (collapseWsAux false m) = true := by
  cases m with
  | nil => rfl
  | cons c rest =>
    have hc : isWs c = false := by simpa [headOk] using h
    rw [show collapseWsAux false (c :: rest) =
      c :: collapseWsAux false rest from by simp [collapseWsAux, hc]]
    simpa [headOk] using h

/-- Collapsing in skip mode always exposes a whitespace-free head. -/
theorem headOk_collapse_true :
    ∀ rest : List Char, headOk (collapseWsAux true rest) = true := by
  intro rest
  induction rest with
  | nil => rfl
  | cons c r ih =>
    by_cases hc : isWs c = true
    · rw [show collapseWsAux true (c :: r) = collapseWsAux true r from by
        simp [collapseWsAux, hc]]
      exact ih
    · rw [show collapseWsAux true (c :: r) = c :: collapseWsAux false r from by
        simp [collapseWsAux, hc]]
      simp [headOk, hc]

/-- Collapsing a list with a clean end never erases it entirely. -/
theorem collapse_ne_nil :
    ∀ (m : List Char), lastNonWs m = true → m ≠ [] →
      ∀ b, collapseWsAux b m ≠ [] := by
  intro m
  induction m with
  | nil => intro _ h; exact absurd rfl h
  | cons c rest ih =>
    intro hl _ b
    by_cases hc : isWs c = true
    · have hrest : rest ≠ [] := by
        intro hr
        subst hr
        simp [lastNonWs, hc] at hl
      have hlr : lastNonWs rest = true := by
        cases rest with
        | nil => exact absurd rfl hrest
        | cons d r2 => exact hl
      cases b with
      | true =>
        rw [show collapseWsAux true (c :: rest) = collapseWsAux true rest from by
          simp [collapseWsAux, hc]]
        exact ih hlr hrest true
      | false =>
        rw [show collapseWsAux false (c :: rest) =
          ' ' :: collapseWsAux true rest from by simp [collapseWsAux, hc]]
        simp
    · rw [show collapseWsAux b (c :: rest) = c :: collapseWsAux false rest from by
        simp [collapseWsAux, hc]]
      simp

/-- Prepending a non-whitespace character preserves normality. -/
theorem normOk_cons_of_not_ws (c : Char) (x : List Char)
    (hc : isWs c = false) (hx : normOk x = true) : normOk (c :: x) = true := by
  cases x with
  | nil => simp [normOk, hc]
  | cons d t =>
    rw [show normOk (c :: d :: t) =
      ((!isWs c || (c == ' ' && !isWs d)) && normOk (d :: t)) from rfl]
    simp [hc, hx]

/-- Prepending a single space before a clean-headed normal list preserves
normality. -/
theorem normOk_space_cons (x : List Char) (hne : x ≠ [])
    (hh : headOk x = true) (hx : normOk x = true) :
    normOk (' ' :: x) = true := by
  cases x with
  | nil => exact absurd rfl hne
  | cons d t =>
    have hd : isWs d = false := by simpa [headOk] using hh
    rw [show normOk (' ' :: d :: t) =
      ((!isWs ' ' || (' ' == ' ' && !isWs d)) && normOk (d :: t)) from rfl]
    simp [hd, hx]

/-- Collapsing a list with a clean end yields a normal list. -/
theorem normOk_collapse :
    ∀ (m : List Char), lastNonWs m = true → ∀ b,
      normOk (collapseWsAux b m) = true := by
  intro m
  induction m with
  | nil => intro _ b; rfl
  | cons c rest ih =>
    intro hl b
    by_cases hc : isWs c = true
    · have hrest : rest ≠ [] := by
        intro hr
        subst hr
        simp [lastNonWs, hc] at hl
      have hlr : lastNonWs rest = true := by
        cases rest with
        | nil => exact absurd rfl hrest
        | cons d r2 => exact hl
      cases b with
      | true =>
        rw [show collapseWsAux true (c :: rest) = collapseWsAux true rest from by
          simp [collapseWsAux, hc]]
        exact ih hlr true
      | false =>
        rw [show collapseWsAux false (c :: rest) =
          ' ' :: collapseWsAux true rest from by simp [collapseWsAux, hc]]
        exact normOk_space_cons _ (collapse_ne_nil rest hlr hrest true)
          (headOk_collapse_true rest) (ih hlr true)
    · have hlr2 : rest = [] ∨ lastNonWs rest = true := by
        cases rest with
        | nil => exact Or.inl rfl
        | cons d r2 => exact Or.inr hl
      rw [show collapseWsAux b (c :: rest) = c :: collapseWsAux false rest from by
        simp [collapseWsAux, hc]]
      rcases hlr2 with hr | hr
      · subst hr
        simp [collapseWsAux, normOk, hc]
      · exact normOk_cons_of_not_ws c _ (by simpa using hc) (ih hr false)

/-- A normal list has a clean end. -/
theorem lastNonWs_of_normOk :
    ∀ m : List Char, normOk m = true → lastNonWs m = true := by
  intro m
  induction m with
  | nil => intro _; rfl
  | cons c rest ih =>
    intro h
    cases rest with
    | nil => exact h
    | cons d r2 =>
      have h2 : normOk (d :: r2) = true := by
        rw [show normOk (c :: d :: r2) =
          ((!isWs c || (c == ' ' && !isWs d)) && normOk (d :: r2)) from rfl,
          Bool.and_eq_true] at h
        exact h.2
      exact ih h2

/-- Stripping is the identity on lists with clean head and end. -/
theorem stripChars_id (m : List Char) (hh : headOk m = true)
    (hl : lastNonWs m = true) : stripChars m = m := by
  unfold stripChars
  have h1 : m.dropWhile isWs = m := by
    cases m with
    | nil => rfl
    | cons c rest =>
      have hc : isWs c = false := by simpa [headOk] using hh
      rw [List.dropWhile_cons_of_neg (by simp [hc])]
  rw [h1]
  have h2 : m.reverse.dropWhile isWs = m.reverse := by
    cases hrv : m.reverse with
    | nil => rfl
    | cons c rest =>
      have hhr : headOk m.reverse = true := headOk_reverse m hl
      rw [hrv] at hhr
      have hc : isWs c = false := by simpa [headOk] using hhr
      rw [List.dropWhile_cons_of_neg (by simp [hc])]
  rw [h2, List.reverse_reverse]

/-- Collapsing is the identity on normal lists with a clean head.  The fuel
`n` bounds the list length so that the induction can step over a space and
its successor at once. -/
theorem collapse_id_fuel :
    ∀ (n : Nat) (m : List Char), m.length ≤ n → normOk m = true →
      headOk m = true → ∀ b, collapseWsAux b m = m := by
  intro n
  induction n with
  | zero =>
    intro m hm _ _ b
    have : m = [] := by
      cases m with
      | nil => rfl
      | cons c rest => simp at hm
    subst this
    rfl
  | succ n ih =>
    intro m hm hn hh b
    cases m with
    | nil => rfl
    | cons c rest =>
      have hc : isWs c = false := by simpa [headOk] using hh
      rw [show collapseWsAux b (c :: rest) = c :: collapseWsAux false rest from by
        simp [collapseWsAux, hc]]
      congr 1
      cases rest with
      | nil => rfl
      | cons d r2 =>
        have hnd : normOk (d :: r2) = true := by
          rw [show normOk (c :: d :: r2) =
            ((!isWs c || (c == ' ' && !isWs d)) && normOk (d :: r2)) from rfl,
            Bool.and_eq_true] at hn
          exact hn.2
        have hmlen : (d :: r2).length ≤ n := by
          simp at hm ⊢
          omega
        by_cases hd : isWs d = true
        · cases r2 with
          | nil => simp [normOk, hd] at hnd
          | cons e r3 =>
            have hpair : (d == ' ' && !isWs e) = true := by
              rw [show normOk (d :: e :: r3) =
                ((!isWs d || (d == ' ' && !isWs e)) && normOk (e :: r3)) from rfl,
                Bool.and_eq_true] at hnd
              have := hnd.1
              rw [Bool.or_eq_true] at this
              rcases this with h1 | h1
              · rw [hd] at h1; exact absurd h1 (by simp)
              · exact h1
            have hne : normOk (e :: r3) = true := by
              rw [show normOk (d :: e :: r3) =
                ((!isWs d || (d == ' ' && !isWs e)) && normOk (e :: r3)) from rfl,
                Bool.and_eq_true] at hnd
              exact hnd.2
            rw [Bool.and_eq_true] at hpair
            have hdeq : d = ' ' := by
              have := hpair.1
              simpa using this
            have hee : isWs e = false := by
              have := hpair.2
              simpa using this
            rw [show collapseWsAux false (d :: e :: r3) =
              ' ' :: collapseWsAux true (e :: r3) from by
                simp [collapseWsAux, hd]]
            rw [hdeq]
            congr 1
            have hlen3 : (e :: r3).length ≤ n := by
              simp at hm ⊢
              omega
            exact ih (e :: r3) hlen3 hne (by simp [headOk, hee]) true
        · exact ih (d :: r2) hmlen hnd (by simp [headOk, hd]) false

/-- Lemma: the character-level core of `_clean_text` is idempotent. -/
theorem cleanChars_idem (l : List Char) : cleanChars (cleanChars l) = cleanChars l := by
  have hh : headOk (cleanChars l) = true :=
    headOk_collapse _ (headOk_stripChars l)
  have hn : normOk (cleanChars l) = true :=
    normOk_collapse _ (lastNonWs_stripChars l) false
  have hl : lastNonWs (cleanChars l) = true := lastNonWs_of_normOk _ hn
  show collapseWsAux false (stripChars (cleanChars l)) = cleanChars l
  rw [stripChars_id _ hh hl]
  exact collapse_id_fuel (cleanChars l).length _ le_rfl hn hh false

/-! ## Claim C9 -/

/-- Claim C9 (confirmed): the text normalizer maps absent and empty input to
the empty string, trims surrounding whitespace and collapses every interior
whitespace run (newlines included) to one space — so it sends
"  a \n\n b  " to "a b" — and it is idempotent on every string. -/
theorem clean_text_contract :
    clean_text_opt none = "" ∧
    clean_text "" = "" ∧
    clean_text "  a \n\n b  " = "a b" ∧
    ∀ x : String, clean_text (clean_text x) = clean_text x := by
  refine ⟨rfl, rfl, by decide, ?_⟩
  intro x
  by_cases h : x.data = []
  · have h1 : clean_text x = "" := by simp [clean_text, h]
    rw [h1]
    all_goals decide
  · have h1 : clean_text x = String.mk (cleanChars x.data) := by
      simp [clean_text, h]
    rw [h1]
    by_cases h2 : cleanChars x.data = []
    · have h3 : String.mk (cleanChars x.data) = "" := by rw [h2]
      rw [h3]
      all_goals decide
    · have h4 : clean_text (String.mk (cleanChars x.data)) =
          String.mk (cleanChars (cleanChars x.data)) := by
        simp [clean_text, h2]
      rw [h4, cleanChars_idem]
